import Mathlib

/-!
Verification of the xui style module (src/src/core/style.js).

Strings are modelled as `List Char`.  The class-matching regular expression
`(?:^|\s+)C(?:\s+|$)` built by `getClassRegEx` is modelled by an executable
matcher (`matchHere` / `findMatch`) that follows the JavaScript regex engine:
leftmost match, alternation tries the first alternative first, `\s+` is greedy
and backtracks.  `C` is treated as a literal token (the library never escapes
it, so this is faithful for class names without regex metacharacters).
-/

namespace Xui

/-- The JavaScript `\s` character class: tab, newline, vertical tab, form
feed, carriage return, space, no-break space, ogham space mark, the en-quad …
hair-space range, line separator, paragraph separator, narrow no-break space,
medium mathematical space, ideographic space, and the byte-order mark. -/
def isWs (ch : Char) : Bool :=
  ch == ' ' || ch == '\t' || ch == '\n' || ch == '\r' ||
  ch == Char.ofNat 11 || ch == Char.ofNat 12 || ch == Char.ofNat 160 ||
  ch == Char.ofNat 0x1680 ||
  (Nat.ble 0x2000 ch.toNat && Nat.ble ch.toNat 0x200A) ||
  ch == Char.ofNat 0x2028 || ch == Char.ofNat 0x2029 ||
  ch == Char.ofNat 0x202F || ch == Char.ofNat 0x205F ||
  ch == Char.ofNat 0x3000 || ch == Char.ofNat 0xFEFF

/-- JavaScript regular-expression metacharacters (and the escape character).
`getClassRegEx` interpolates the className into the pattern source unescaped,
so the literal matcher below is faithful exactly for class names avoiding
these; theorems quantifying over class names carry this restriction. -/
def isRegexMeta (ch : Char) : Bool :=
  ch == '\\' || ch == '^' || ch == '$' || ch == '.' || ch == '|' ||
  ch == '?' || ch == '*' || ch == '+' || ch == '(' || ch == ')' ||
  ch == '[' || ch == ']' || ch == Char.ofNat 123 || ch == Char.ofNat 125

/-- Length of the maximal whitespace run at the head of the string. -/
def wsRun : List Char → Nat
  | [] => 0
  | ch :: rest => if isWs ch then wsRun rest + 1 else 0

/-- Literal-prefix test (the regex engine matching the literal `C`). -/
def isPre : List Char → List Char → Bool
  | [], _ => true
  | _ :: _, [] => false
  | a :: as, b :: bs => a == b && isPre as bs

/-- Matches the tail `(?:\s+|$)` of the class regex at `rest`, returning how
many characters it consumes: `\s+` is tried first (greedily), then `$`. -/
def afterToken (rest : List Char) : Option Nat :=
  if 0 < wsRun rest then some (wsRun rest)
  else if rest.isEmpty then some 0
  else none

/-- Backtracking for the leading `\s+` alternative: try run lengths
`j, j-1, …, 1` (the caller starts at the maximal run, as the greedy engine
does), each followed by the literal `c` and the tail `(?:\s+|$)`. -/
def tryWs (c s : List Char) : Nat → Option Nat
  | 0 => none
  | j + 1 =>
    if isPre c (s.drop (j + 1)) then
      match afterToken (s.drop (j + 1 + c.length)) with
      | some k => some (j + 1 + c.length + k)
      | none => tryWs c s j
    else tryWs c s j

/-- Attempts to match `(?:^|\s+)c(?:\s+|$)` at the current position, returning
the length of the match.  `^` only applies when `atStart` is true; on failure
of the first alternative the engine backtracks into the `\s+` alternative. -/
def matchHere (c s : List Char) (atStart : Bool) : Option Nat :=
  if atStart && isPre c s then
    match afterToken (s.drop c.length) with
    | some k => some (c.length + k)
    | none => tryWs c s (wsRun s)
  else tryWs c s (wsRun s)

/-- Leftmost match of the class regex: scans positions left to right and
returns the first position together with the match length, as both
`RegExp.prototype.test` and non-global `String.prototype.replace` do. -/
def findMatch (c : List Char) : List Char → Bool → Option (Nat × Nat)
  | [], atStart =>
    match matchHere c [] atStart with
    | some len => some (0, len)
    | none => none
  | s@(_ :: rest), atStart =>
    match matchHere c s atStart with
    | some len => some (0, len)
    | none => (findMatch c rest false).map fun il => (il.1 + 1, il.2)

/-- Models `getClassRegEx(c).test(s)`. -/
def classTest (c s : List Char) : Bool := (findMatch c s true).isSome

/-- Models `s.replace(getClassRegEx(c), '')` (non-global: first match only). -/
def replaceFirst (c s : List Char) : List Char :=
  match findMatch c s true with
  | none => s
  | some il => s.take il.1 ++ s.drop (il.1 + il.2)

/-- Models `trim` from the source: `text.replace(rtrim, "")` with
`rtrim = /^(\s| )+|(\s| )+$/g`, i.e. removing the leading and the
trailing whitespace run. -/
def trim (text : List Char) : List Char :=
  ((text.dropWhile isWs).reverse.dropWhile isWs).reverse

/-- `addClass` per element, on the className string:
`if (hasClass(el, className) === false) el.className = trim(el.className + ' ' + className)`. -/
def addClassStr (className s : List Char) : List Char :=
  if classTest className s then s else trim (s ++ ' ' :: className)

/-- `removeClass` per element, on the className string:
`el.className = el.className.replace(getClassRegEx(className), '')`. -/
def removeClassStr (className s : List Char) : List Char :=
  replaceFirst className s

/-!
### Collection model

The host collection (out of src/, described by the spec) is an ordered list of
elements; `each(fn)` applies `fn` to every element in order and returns the
collection itself.  Methods below therefore map over the element list and tag
their JavaScript return value with `Ret`: `Ret.self` is `this` (the very
collection the method was invoked on), the other constructors are the
non-chainable returns.  Callback-taking methods additionally return the trace
of callback invocations, in invocation order.
-/

/-- A DOM-like element: its mutable `className` string, its inline `style`
property map, and the platform's computed-style accessor
(`getComputedStyle(el, "").getPropertyValue(p)`) as a function field. -/
structure Element where
  className : List Char
  style : List (List Char × List Char)
  computed : List Char → List Char

/-- The JavaScript return value of a method: the collection itself (`this`),
a boolean, or a string. -/
inductive Ret where
  | self
  | bool (b : Bool)
  | str (v : List Char)
deriving DecidableEq

/-- Models the private helper `hasClass(el, className)`:
`getClassRegEx(className).test(el.className)`. -/
def hasClassFn (el : Element) (className : List Char) : Bool :=
  classTest className el.className

/-- Assoc-list lookup with `List Char` keys (JS object property read). -/
def lookupProp {β : Type} (p : List Char) : List (List Char × β) → Option β
  | [] => none
  | (q, w) :: rest => if q = p then some w else lookupProp p rest

/-- JS property write `st[p] = v`: update the existing entry, else append. -/
def setProp : List (List Char × List Char) → List Char → List Char →
    List (List Char × List Char)
  | [], p, v => [(p, v)]
  | (q, w) :: rest, p, v =>
    if q = p then (p, v) :: rest else (q, w) :: setProp rest p v

/-- `setStyle(prop, val)`: `this.each(el => el.style[prop] = val)`;
`each` returns the collection. -/
def setStyle (prop val : List Char) (elems : List Element) :
    List Element × Ret :=
  (elems.map fun el => { el with style := setProp el.style prop val }, Ret.self)

/-- `getStyle(prop, callback?)`.  Without a callback it reads the computed
style of `this[0]` (`none` models the TypeError on an empty collection); with
a callback it calls `callback(gs(el, prop))` per element, returning the trace
of callback arguments, and returns the collection. -/
def getStyle (prop : List Char) (hasCb : Bool) (elems : List Element) :
    Option (Ret × List (List Char)) :=
  if hasCb then some (Ret.self, elems.map fun el => el.computed prop)
  else elems[0]?.map fun el => (Ret.str (el.computed prop), [])

/-- `addClass(className)`: per element, append-and-trim when the word-boundary
test fails, as in the source. -/
def addClass (className : List Char) (elems : List Element) :
    List Element × Ret :=
  (elems.map fun el => { el with className := addClassStr className el.className },
   Ret.self)

/-- `hasClass(className, callback?)` exactly as the source: the single-element
no-callback branch returns `hasClass(this[0], this[0].className)`, and the
`each` branch invokes the callback on elements passing
`hasClass(el, el.className)` — note both pass `el.className`, not the
`className` argument.  The second component is the trace of elements the
callback is invoked on, in order.  Caveat: with no callback on a non-singleton
collection the source still reaches the `each` branch and throws a TypeError
at the first element passing the test (the callback is undefined); the model
returns the trace those invocation attempts would visit, and only the
callback-present shape of this branch is relied on by theorems. -/
def hasClass (className : List Char) (hasCb : Bool) (elems : List Element) :
    Ret × List Element :=
  match hasCb, elems with
  | false, [el] => (Ret.bool (hasClassFn el el.className), [])
  | _, _ => (Ret.self, elems.filter fun el => hasClassFn el el.className)

/-- `removeClass(className?)`: with no argument `el.className = ''` for every
element, otherwise the regex substitution per element; `return this` sits
outside the if/else, hence the `Ret.self` outside the match. -/
def removeClass (classNameOpt : Option (List Char)) (elems : List Element) :
    List Element × Ret :=
  (match classNameOpt with
   | none => elems.map fun el => { el with className := [] }
   | some c => elems.map fun el => { el with className := removeClassStr c el.className },
   Ret.self)

/-- One iteration of the `each` body of `css(o)`:
`for (var prop in o) that.setStyle(prop, o[prop])` — each property is set on
the whole collection `that`. -/
def cssStep (o : List (List Char × List Char)) (elems : List Element) :
    List Element :=
  o.foldl (fun st pv => (setStyle pv.1 pv.2 st).1) elems

/-- `css(o)`: `that.each(...)` runs the body once per element of the
collection (the body ignores the element and rewrites the whole collection),
so the step executes `length`-many times; `each` returns the collection. -/
def css (o : List (List Char × List Char)) (elems : List Element) :
    List Element × Ret :=
  ((cssStep o)^[elems.length] elems, Ret.self)

/-!
### Regex cache
-/

/-- A compiled `RegExp` object: its pattern source plus an identity tag
(`id` records which compilation created the object, so object reuse versus
recompilation is observable). -/
structure RegexObj where
  pat : List Char
  id : Nat
deriving DecidableEq

/-- The pattern source `'(?:^|\\s+)' + className + '(?:\\s+|$)'`. -/
def regexSource (className : List Char) : List Char :=
  "(?:^|\\s+)".toList ++ className ++ "(?:\\s+|$)".toList

/-- The process-wide `reClassNameCache` together with a counter supplying
identities for newly compiled `RegExp` objects. -/
structure Cache where
  entries : List (List Char × RegexObj)
  nextId : Nat
deriving DecidableEq

/-- `getClassRegEx(className)`: look the class name up in the cache; on a miss
compile `new RegExp(...)` and store it. -/
def getClassRegEx (className : List Char) (st : Cache) : RegexObj × Cache :=
  match lookupProp className st.entries with
  | some re => (re, st)
  | none =>
    let re : RegexObj := ⟨regexSource className, st.nextId⟩
    (re, ⟨st.entries ++ [(className, re)], st.nextId + 1⟩)

/-- Per-element `css` effect on a style map: fold `setProp` over the
property object (proof helper for relating `css` to sequential `setStyle`). -/
def applyProps (o : List (List Char × List Char))
    (st : List (List Char × List Char)) : List (List Char × List Char) :=
  o.foldl (fun s pv => setProp s pv.1 pv.2) st

/-- Per-element form of `cssStep` (proof helper). -/
def elStep (o : List (List Char × List Char)) (el : Element) : Element :=
  { el with style := applyProps o el.style }

/-- Reference behavior the spec demands of `css(o)`: call
`setStyle(key, o[key])` on the whole collection, in sequence, for each key. -/
def setStyleSeq (o : List (List Char × List Char)) (elems : List Element) :
    List Element :=
  o.foldl (fun st pv => (setStyle pv.1 pv.2 st).1) elems

/-- Concrete element used by witnesses. -/
def elRed : Element := ⟨"foo".toList, [], fun _ => "red".toList⟩

/-- Concrete element used by witnesses. -/
def elBlue : Element := ⟨"foo bar".toList, [], fun _ => "blue".toList⟩

/-! ### Basic lemmas about the matcher -/

theorem isPre_refl (l : List Char) : isPre l l = true := by
  induction l with
  | nil => rfl
  | cons a as ih => simp [isPre, ih]

theorem isPre_length_le : ∀ {c s : List Char}, isPre c s = true → c.length ≤ s.length
  | [], _, _ => by simp
  | _ :: _, [], h => by simp [isPre] at h
  | a :: as, b :: bs, h => by
    simp only [isPre, Bool.and_eq_true] at h
    exact Nat.succ_le_succ (isPre_length_le h.2)

theorem wsRun_le_length (s : List Char) : wsRun s ≤ s.length := by
  induction s with
  | nil => simp [wsRun]
  | cons a as ih =>
    simp only [wsRun, List.length_cons]
    split <;> omega

theorem afterToken_le {rest : List Char} {k : Nat}
    (h : afterToken rest = some k) : k ≤ rest.length := by
  unfold afterToken at h
  split at h
  · cases h
    exact wsRun_le_length rest
  · split at h
    · cases h
      exact Nat.zero_le _
    · cases h

theorem tryWs_le (c s : List Char) :
    ∀ j r, j ≤ s.length → tryWs c s j = some r → r ≤ s.length := by
  intro j
  induction j with
  | zero => intro r _ h; cases h
  | succ j ih =>
    intro r hj h
    simp only [tryWs] at h
    split at h
    · rename_i hpre
      split at h
      · rename_i k hk
        cases h
        have h1 : c.length ≤ (s.drop (j + 1)).length := isPre_length_le hpre
        have h2 : k ≤ (s.drop (j + 1 + c.length)).length := afterToken_le hk
        rw [List.length_drop] at h1 h2
        omega
      · exact ih r (by omega) h
    · exact ih r (by omega) h

theorem matchHere_le {c s : List Char} {b : Bool} {len : Nat}
    (h : matchHere c s b = some len) : len ≤ s.length := by
  simp only [matchHere] at h
  split at h
  · rename_i hcond
    rw [Bool.and_eq_true] at hcond
    split at h
    · rename_i k hk
      cases h
      have h1 := isPre_length_le hcond.2
      have h2 := afterToken_le hk
      rw [List.length_drop] at h2
      omega
    · exact tryWs_le c s _ len (wsRun_le_length s) h
  · exact tryWs_le c s _ len (wsRun_le_length s) h

theorem findMatch_le (c : List Char) :
    ∀ (s : List Char) (b : Bool) (i len : Nat),
      findMatch c s b = some (i, len) → i + len ≤ s.length := by
  intro s
  induction s with
  | nil =>
    intro b i len h
    simp only [findMatch] at h
    split at h
    · rename_i len' hm
      cases h
      have := matchHere_le hm
      simpa using this
    · cases h
  | cons a rest ih =>
    intro b i len h
    simp only [findMatch] at h
    split at h
    · rename_i len' hm
      cases h
      have := matchHere_le hm
      simpa using this
    · rw [Option.map_eq_some'] at h
      obtain ⟨⟨i', len'⟩, hf, heq⟩ := h
      cases heq
      have := ih false i' len' hf
      simp only [List.length_cons]
      omega

theorem matchHere_self (c : List Char) : matchHere c c true = some c.length := by
  simp only [matchHere, isPre_refl, Bool.and_true, if_true]
  rw [List.drop_length]
  simp [afterToken, wsRun]

theorem classTest_self (c : List Char) : classTest c c = true := by
  cases c with
  | nil => decide
  | cons a as =>
    unfold classTest
    simp only [findMatch, matchHere_self]
    rfl

/-- A class token preceded by a space and ending the string is always found by
the matcher, from any scanning position. -/
theorem findMatch_append_token (c : List Char) (hne : c ≠ [])
    (hws : ∀ ch ∈ c, isWs ch = false) :
    ∀ (u : List Char) (b : Bool), (findMatch c (u ++ ' ' :: c) b).isSome = true := by
  obtain ⟨ch, c', rfl⟩ : ∃ ch c', c = ch :: c' := by
    cases c with
    | nil => exact absurd rfl hne
    | cons x xs => exact ⟨x, xs, rfl⟩
  have hch : isWs ch = false := hws ch (List.mem_cons_self ch c')
  have hchsp : (ch == ' ') = false := by
    have hne' : ch ≠ ' ' := by
      intro hh
      rw [hh] at hch
      rw [show isWs ' ' = true from by decide] at hch
      cases hch
    simpa using hne'
  intro u
  induction u with
  | nil =>
    intro b
    have hws1 : wsRun (' ' :: ch :: c') = 1 := by
      have h0 : wsRun (ch :: c') = 0 := by simp [wsRun, hch]
      have hsp : isWs ' ' = true := by decide
      rw [wsRun]
      simp [hsp, h0]
    have htry : tryWs (ch :: c') (' ' :: ch :: c') 1 =
        some (1 + (ch :: c').length + 0) := by
      have h1 : isPre (ch :: c') ((' ' :: ch :: c').drop (0 + 1)) = true := by
        simpa using isPre_refl (ch :: c')
      have h2 : afterToken ((' ' :: ch :: c').drop (0 + 1 + (ch :: c').length)) =
          some 0 := by
        have : (' ' :: ch :: c').drop (0 + 1 + (ch :: c').length) = [] := by
          simp only [Nat.zero_add]
          rw [show (1 + (ch :: c').length) = (ch :: c').length + 1 from Nat.add_comm _ _]
          rw [List.drop_succ_cons, List.drop_length]
        rw [this]
        rfl
      show tryWs (ch :: c') (' ' :: ch :: c') (0 + 1) = _
      simp only [tryWs, h1, if_true, h2]
    have hm : matchHere (ch :: c') (' ' :: ch :: c') b =
        some (1 + (ch :: c').length + 0) := by
      simp only [matchHere, isPre, hchsp, Bool.false_and, Bool.and_false,
        if_false, hws1]
      exact htry
    show (findMatch (ch :: c') (' ' :: ch :: c') b).isSome = true
    simp only [findMatch, hm]
    rfl
  | cons a u' ih =>
    intro b
    show (findMatch (ch :: c') (a :: (u' ++ ' ' :: ch :: c')) b).isSome = true
    simp only [findMatch]
    split
    · rfl
    · simpa using ih false

/-! ### Shape of `trim` and `addClass` results -/

theorem dropWhile_eq_self_of_head {a : Char} {l : List Char}
    (h : isWs a = false) : (a :: l).dropWhile isWs = a :: l := by
  rw [List.dropWhile_cons, h]
  simp

theorem revTrim_eq_self {l : List Char}
    (h : ∃ a t, l.reverse = a :: t ∧ isWs a = false) :
    (l.reverse.dropWhile isWs).reverse = l := by
  obtain ⟨a, t, he, ha⟩ := h
  rw [he, dropWhile_eq_self_of_head ha, ← he, List.reverse_reverse]

theorem trim_append_token (c : List Char) (hne : c ≠ [])
    (hws : ∀ ch ∈ c, isWs ch = false) (s : List Char) :
    trim (s ++ ' ' :: c) = c ∨ ∃ u, trim (s ++ ' ' :: c) = u ++ ' ' :: c := by
  obtain ⟨lc, rc, hrev⟩ : ∃ lc rc, c.reverse = lc :: rc := by
    cases hc : c.reverse with
    | nil => exact absurd (by simpa using hc) hne
    | cons x xs => exact ⟨x, xs, rfl⟩
  have hlc : isWs lc = false := by
    refine hws lc (List.mem_reverse.mp ?_)
    rw [hrev]
    exact List.mem_cons_self _ _
  have hchead : ∀ ch' cs, c = ch' :: cs → c.dropWhile isWs = c := by
    intro ch' cs hcc
    rw [hcc]
    exact dropWhile_eq_self_of_head (hws ch' (hcc ▸ List.mem_cons_self _ _))
  unfold trim
  rw [List.dropWhile_append]
  by_cases hd : (s.dropWhile isWs).isEmpty
  · rw [if_pos hd]
    left
    have h1 : (' ' :: c).dropWhile isWs = c := by
      rw [List.dropWhile_cons]
      have hsp : isWs ' ' = true := by decide
      rw [hsp]
      simp only [if_true]
      cases c with
      | nil => exact absurd rfl hne
      | cons x xs => exact hchead x xs rfl
    rw [h1]
    exact revTrim_eq_self ⟨lc, rc, hrev, hlc⟩
  · rw [if_neg hd]
    right
    refine ⟨s.dropWhile isWs, ?_⟩
    apply revTrim_eq_self
    refine ⟨lc, rc ++ ' ' :: (s.dropWhile isWs).reverse, ?_, hlc⟩
    rw [List.reverse_append, List.reverse_cons, List.append_assoc, hrev]
    rfl

theorem addClassStr_token_end (c s : List Char) (hne : c ≠ [])
    (hws : ∀ ch ∈ c, isWs ch = false) (h : classTest c s = false) :
    addClassStr c s = c ∨ ∃ u, addClassStr c s = u ++ ' ' :: c := by
  rw [addClassStr, if_neg (by rw [h]; exact Bool.false_ne_true)]
  exact trim_append_token c hne hws s

/-! ### Assoc-list lemmas for the style map and the regex cache -/

theorem lookupProp_setProp (p q v : List Char)
    (st : List (List Char × List Char)) :
    lookupProp p (setProp st q v) = if q = p then some v else lookupProp p st := by
  induction st with
  | nil => simp [setProp, lookupProp]
  | cons hd rest ih =>
    obtain ⟨q', w'⟩ := hd
    by_cases h1 : q' = q
    · subst h1
      simp only [setProp, if_pos rfl]
      by_cases h2 : q' = p
      · subst h2
        simp [lookupProp]
      · simp [lookupProp, h2]
    · simp only [setProp, if_neg h1]
      by_cases h2 : q' = p
      · subst h2
        have h3 : ¬ q = q' := fun hh => h1 hh.symm
        simp [lookupProp, h3]
      · simp [lookupProp, h2, ih]

theorem setProp_lookup_self {p v : List Char}
    {st : List (List Char × List Char)} (h : lookupProp p st = some v) :
    setProp st p v = st := by
  induction st with
  | nil => simp [lookupProp] at h
  | cons hd rest ih =>
    obtain ⟨q, w⟩ := hd
    by_cases h1 : q = p
    · subst h1
      rw [lookupProp, if_pos rfl] at h
      cases h
      simp [setProp]
    · rw [lookupProp, if_neg h1] at h
      simp [setProp, h1, ih h]

theorem lookupProp_applyProps_not_mem {p : List Char}
    {o : List (List Char × List Char)} (hp : p ∉ o.map Prod.fst)
    (st : List (List Char × List Char)) :
    lookupProp p (applyProps o st) = lookupProp p st := by
  induction o generalizing st with
  | nil => rfl
  | cons pv o' ih =>
    simp only [List.map_cons, List.mem_cons] at hp
    push_neg at hp
    show lookupProp p (applyProps o' (setProp st pv.1 pv.2)) = _
    rw [ih hp.2, lookupProp_setProp, if_neg fun hh => hp.1 hh.symm]

theorem lookupProp_applyProps_mem {o : List (List Char × List Char)}
    (hnd : (o.map Prod.fst).Nodup) :
    ∀ pv ∈ o, ∀ st, lookupProp pv.1 (applyProps o st) = some pv.2 := by
  induction o with
  | nil => intro pv h; cases h
  | cons hd o' ih =>
    obtain ⟨p₀, v₀⟩ := hd
    simp only [List.map_cons, List.nodup_cons] at hnd
    intro pv hpv st
    rcases List.mem_cons.mp hpv with heq | hmem
    · subst heq
      show lookupProp p₀ (applyProps o' (setProp st p₀ v₀)) = some v₀
      rw [lookupProp_applyProps_not_mem hnd.1, lookupProp_setProp, if_pos rfl]
    · exact ih hnd.2 pv hmem (setProp st p₀ v₀)

theorem applyProps_of_lookup {o st}
    (h : ∀ pv ∈ o, lookupProp pv.1 st = some pv.2) : applyProps o st = st := by
  induction o with
  | nil => rfl
  | cons pv o' ih =>
    show applyProps o' (setProp st pv.1 pv.2) = st
    rw [setProp_lookup_self (h pv (List.mem_cons_self _ _))]
    exact ih fun qv hq => h qv (List.mem_cons_of_mem _ hq)

theorem applyProps_idem {o : List (List Char × List Char)}
    (hnd : (o.map Prod.fst).Nodup) (st : List (List Char × List Char)) :
    applyProps o (applyProps o st) = applyProps o st :=
  applyProps_of_lookup fun pv hpv => lookupProp_applyProps_mem hnd pv hpv st

theorem lookupProp_append_self {β : Type} (p : List Char) (x : β)
    {l : List (List Char × β)} (h : lookupProp p l = none) :
    lookupProp p (l ++ [(p, x)]) = some x := by
  induction l with
  | nil => simp [lookupProp]
  | cons hd rest ih =>
    obtain ⟨q, w⟩ := hd
    by_cases h1 : q = p
    · rw [lookupProp, if_pos h1] at h
      cases h
    · rw [lookupProp, if_neg h1] at h
      rw [List.cons_append, lookupProp, if_neg h1]
      exact ih h

theorem lookupProp_none_not_mem {β : Type} {p : List Char}
    {l : List (List Char × β)} (h : lookupProp p l = none) :
    p ∉ l.map Prod.fst := by
  induction l with
  | nil => simp
  | cons hd rest ih =>
    obtain ⟨q, w⟩ := hd
    by_cases h1 : q = p
    · rw [lookupProp, if_pos h1] at h
      cases h
    · rw [lookupProp, if_neg h1] at h
      simp only [List.map_cons, List.mem_cons]
      push_neg
      exact ⟨fun hh => h1 hh.symm, ih h⟩

/-! ### Relating `css` to sequential `setStyle` -/

theorem cssStep_eq_map (o : List (List Char × List Char)) :
    ∀ elems : List Element, cssStep o elems = elems.map (elStep o) := by
  induction o with
  | nil =>
    intro elems
    show elems = elems.map (elStep [])
    have h : elems.map (elStep []) = elems.map id :=
      List.map_congr_left fun el _ => rfl
    rw [h, List.map_id]
  | cons pv o' ih =>
    intro elems
    show cssStep o' ((setStyle pv.1 pv.2 elems).1) = _
    rw [show (setStyle pv.1 pv.2 elems).1 =
          elems.map (fun el => { el with style := setProp el.style pv.1 pv.2 }) from rfl]
    rw [ih, List.map_map]
    apply List.map_congr_left
    intro el _
    rfl

theorem elStep_idem {o : List (List Char × List Char)}
    (hnd : (o.map Prod.fst).Nodup) (el : Element) :
    elStep o (elStep o el) = elStep o el := by
  show ({ el with style := applyProps o (applyProps o el.style) } : Element) = _
  rw [applyProps_idem hnd]
  rfl

theorem cssStep_idem {o : List (List Char × List Char)}
    (hnd : (o.map Prod.fst).Nodup) (elems : List Element) :
    cssStep o (cssStep o elems) = cssStep o elems := by
  rw [cssStep_eq_map, cssStep_eq_map, List.map_map]
  apply List.map_congr_left
  intro el _
  exact elStep_idem hnd el

theorem iterate_fix {α : Type} {f : α → α} (hf : ∀ x, f (f x) = f x) :
    ∀ (n : Nat) (x : α), f^[n + 1] x = f x := by
  intro n
  induction n with
  | zero => intro x; rfl
  | succ n ih =>
    intro x
    rw [Function.iterate_succ_apply, ih (f x), hf]

/-! ### The claims -/

/-- C1: the claim says removeClass("b") on className "a b c" must leave "a"
and "c" present as whole tokens.  The code instead yields "ac": the regex
match consumes the whitespace on both sides of "b" and is replaced by the
empty string, merging "a" and "c" into one token.  "b" (and only "b") is
indeed removed as a whole token, but "a" and "c" do not survive as tokens. -/
theorem removeClass_abc_eval :
    removeClassStr "b".toList "a b c".toList = "ac".toList ∧
    classTest "b".toList "ac".toList = false ∧
    classTest "a".toList "ac".toList = false ∧
    classTest "c".toList "ac".toList = false := by decide

/-- C2: the claim says hasClass(className, callback) invokes the callback
exactly on elements whose class list contains the className argument.  The
code tests hasClass(el, el.className) — the element's own className against
itself — so on an element with className "foo" the callback is invoked even
though the argument "b" is not among its classes. -/
theorem hasClass_callback_eval :
    (hasClass "b".toList true [elRed]).2 = [elRed] ∧
    classTest "b".toList elRed.className = false :=
  ⟨rfl, by decide⟩

/-- C3: hasClass(className) with no callback on a one-element collection
returns the word-boundary test of the element's own className against itself;
the className argument does not influence the result. -/
theorem hasClass_single_ignores_argument (c₁ c₂ : List Char) (el : Element) :
    hasClass c₁ false [el] = hasClass c₂ false [el] ∧
    (hasClass c₁ false [el]).1 = Ret.bool (classTest el.className el.className) :=
  ⟨rfl, rfl⟩

/-- C4: for a class name that is a plain token — nonempty, containing no
JavaScript whitespace character and no regex metacharacter, the domain on
which the unescaped interpolation into `new RegExp` behaves as literal
matching — addClass on a className lacking it makes the word-boundary
membership test succeed, and addClass is idempotent (literal string equality,
hence token-set equality). -/
theorem addClass_membership_and_idem (c s : List Char) (hne : c ≠ [])
    (hws : ∀ ch ∈ c, isWs ch = false)
    (hmeta : ∀ ch ∈ c, isRegexMeta ch = false) :
    (classTest c s = false → classTest c (addClassStr c s) = true) ∧
    addClassStr c (addClassStr c s) = addClassStr c s := by
  have key : ∀ t, classTest c t = true → addClassStr c t = t :=
    fun t h => by rw [addClassStr, if_pos h]
  have hmem : classTest c s = false → classTest c (addClassStr c s) = true := by
    intro h
    rcases addClassStr_token_end c s hne hws h with hc | ⟨u, hu⟩
    · rw [hc]
      exact classTest_self c
    · rw [hu]
      exact findMatch_append_token c hne hws u true
  refine ⟨hmem, ?_⟩
  by_cases ht : classTest c s = true
  · have hss := key s ht
    rw [hss]
    exact hss
  · have hf : classTest c s = false := by
      revert ht
      cases classTest c s <;> simp
    exact key _ (hmem hf)

/-- C4 witness: adding the fresh class "d" to "a b". -/
theorem addClass_membership_and_idem_w :
    ("d".toList ≠ [] ∧ (∀ ch ∈ "d".toList, isWs ch = false) ∧
      (∀ ch ∈ "d".toList, isRegexMeta ch = false)) ∧
    ((classTest "d".toList "a b".toList = false →
        classTest "d".toList (addClassStr "d".toList "a b".toList) = true) ∧
      addClassStr "d".toList (addClassStr "d".toList "a b".toList) =
        addClassStr "d".toList "a b".toList) :=
  ⟨⟨by decide, by decide, by decide⟩,
   addClass_membership_and_idem "d".toList "a b".toList (by decide) (by decide)
     (by decide)⟩

/-- C5: getStyle(prop) without a callback returns the first element's
computed value; with a callback, the trace of callback arguments is, in
order, each element's own computed value. -/
theorem getStyle_first_and_trace (p : List Char) (elems : List Element)
    (el0 : Element) (h0 : elems[0]? = some el0) :
    getStyle p false elems = some (Ret.str (el0.computed p), []) ∧
    ∃ tr : List (List Char), getStyle p true elems = some (Ret.self, tr) ∧
      tr.length = elems.length ∧
      ∀ i : Nat, tr[i]? = elems[i]?.map fun el => el.computed p := by
  constructor
  · have h : getStyle p false elems =
        elems[0]?.map fun el => (Ret.str (el.computed p), []) := rfl
    rw [h, h0]
    rfl
  · refine ⟨elems.map fun el => el.computed p, ?_, by simp, fun i => ?_⟩
    · rfl
    · simp [List.getElem?_map]

/-- C5 witness: a two-element collection with computed values "red", "blue". -/
theorem getStyle_first_and_trace_w :
    getStyle "color".toList false [elRed, elBlue] =
      some (Ret.str (elRed.computed "color".toList), []) ∧
    ∃ tr : List (List Char),
      getStyle "color".toList true [elRed, elBlue] = some (Ret.self, tr) ∧
      tr.length = [elRed, elBlue].length ∧
      ∀ i : Nat, tr[i]? = [elRed, elBlue][i]?.map fun el => el.computed "color".toList :=
  getStyle_first_and_trace "color".toList [elRed, elBlue] elRed rfl

/-- C6: for a properties object (distinct keys), css(o) leaves the collection
in exactly the state produced by calling setStyle(key, o[key]) sequentially
for each key of o on the whole collection. -/
theorem css_eq_setStyleSeq (o : List (List Char × List Char))
    (elems : List Element) (hnd : (o.map Prod.fst).Nodup) :
    (css o elems).1 = setStyleSeq o elems := by
  show (cssStep o)^[elems.length] elems = setStyleSeq o elems
  cases elems with
  | nil =>
    show ([] : List Element) = setStyleSeq o []
    rw [show setStyleSeq o ([] : List Element) = cssStep o [] from rfl,
      cssStep_eq_map]
    rfl
  | cons e es =>
    show (cssStep o)^[es.length + 1] (e :: es) = _
    rw [iterate_fix (cssStep_idem hnd)]
    rfl

/-- C6 witness: css with color/border on a two-element collection. -/
theorem css_eq_setStyleSeq_w :
    ((([("color".toList, "red".toList),
        ("border".toList, "1px solid blue".toList)].map Prod.fst)).Nodup) ∧
    (css [("color".toList, "red".toList),
        ("border".toList, "1px solid blue".toList)] [elRed, elBlue]).1 =
      setStyleSeq [("color".toList, "red".toList),
        ("border".toList, "1px solid blue".toList)] [elRed, elBlue] :=
  ⟨by decide,
   css_eq_setStyleSeq _ [elRed, elBlue] (by decide)⟩

/-- C7: removeClass() with no argument sets every element's className to the
empty string. -/
theorem removeClass_no_arg_clears (elems : List Element) :
    (removeClass none elems).1.length = elems.length ∧
    ∀ el ∈ (removeClass none elems).1, el.className = [] := by
  constructor
  · exact List.length_map _ _
  · intro el hel
    have h : (removeClass none elems).1 =
        elems.map fun e => { e with className := [] } := rfl
    rw [h] at hel
    obtain ⟨x, hx, rfl⟩ := List.mem_map.mp hel
    rfl

/-- C7 witness: clearing a two-element collection. -/
theorem removeClass_no_arg_clears_w :
    (removeClass none [elRed, elBlue]).1.length = 2 ∧
    ∀ el ∈ (removeClass none [elRed, elBlue]).1, el.className = [] :=
  ⟨(removeClass_no_arg_clears [elRed, elBlue]).1,
   (removeClass_no_arg_clears [elRed, elBlue]).2⟩

/-- C8: from a well-formed cache (at most one entry per class name),
getClassRegEx keeps the cache well-formed, and a repeated call with the same
class name returns the very same compiled pattern object and leaves the cache
(including its compilation counter) unchanged: no recompilation. -/
theorem getClassRegEx_cache (c : List Char) (st : Cache)
    (hnd : (st.entries.map Prod.fst).Nodup) :
    ((getClassRegEx c st).2.entries.map Prod.fst).Nodup ∧
    getClassRegEx c (getClassRegEx c st).2 =
      ((getClassRegEx c st).1, (getClassRegEx c st).2) := by
  cases h : lookupProp c st.entries with
  | some re =>
    have h1 : getClassRegEx c st = (re, st) := by rw [getClassRegEx, h]
    rw [h1]
    exact ⟨hnd, h1⟩
  | none =>
    have h1 : getClassRegEx c st =
        (⟨regexSource c, st.nextId⟩,
         ⟨st.entries ++ [(c, ⟨regexSource c, st.nextId⟩)], st.nextId + 1⟩) := by
      rw [getClassRegEx, h]
    rw [h1]
    constructor
    · show ((st.entries ++ [(c, _)]).map Prod.fst).Nodup
      rw [List.map_append]
      refine List.Nodup.append hnd (by simp) ?_
      intro a ha hb
      simp only [List.map_cons, List.map_nil, List.mem_singleton] at hb
      subst hb
      exact lookupProp_none_not_mem h ha
    · have h2 : lookupProp c
          (st.entries ++ [(c, (⟨regexSource c, st.nextId⟩ : RegexObj))]) =
          some ⟨regexSource c, st.nextId⟩ :=
        lookupProp_append_self c _ h
      rw [getClassRegEx]
      rw [show (Cache.mk (st.entries ++ [(c, ⟨regexSource c, st.nextId⟩)])
            (st.nextId + 1)).entries =
          st.entries ++ [(c, ⟨regexSource c, st.nextId⟩)] from rfl]
      rw [h2]

/-- C8 witness: first and second lookup of "foo" starting from the empty
cache. -/
theorem getClassRegEx_cache_w :
    ((((⟨[], 0⟩ : Cache).entries.map Prod.fst)).Nodup) ∧
    (((getClassRegEx "foo".toList ⟨[], 0⟩).2.entries.map Prod.fst).Nodup ∧
      getClassRegEx "foo".toList (getClassRegEx "foo".toList ⟨[], 0⟩).2 =
        ((getClassRegEx "foo".toList ⟨[], 0⟩).1,
         (getClassRegEx "foo".toList ⟨[], 0⟩).2)) :=
  ⟨by decide, getClassRegEx_cache "foo".toList ⟨[], 0⟩ (by decide)⟩

/-- C9: setStyle, addClass, css, and removeClass (with or without a
className) all return the collection itself (`this`), for every input. -/
theorem methods_return_collection (p v c : List Char)
    (o : List (List Char × List Char)) (copt : Option (List Char))
    (elems : List Element) :
    (setStyle p v elems).2 = Ret.self ∧
    (addClass c elems).2 = Ret.self ∧
    (css o elems).2 = Ret.self ∧
    (removeClass copt elems).2 = Ret.self :=
  ⟨rfl, rfl, rfl, rfl⟩

/-- C10 counterexample: on className "a b b c" the token "b" appears twice,
yet after removeClass("b") the result is "ab c" and the word-boundary test
for "b" fails: the later occurrence did not remain (its characters merged
into the token "ab"). -/
theorem removeClass_second_occurrence_lost :
    removeClassStr "b".toList "a b b c".toList = "ab c".toList ∧
    classTest "b".toList "ab c".toList = false := by decide

/-- C10 amended: removeClass with a className performs at most one
substitution per element — the result is the original string with one
contiguous segment (the first word-boundary match) deleted — and the
characters of a later occurrence are kept, remaining a whole token when no
neighbor merges into them, as in "b x b" → "x b". -/
theorem removeClass_single_substitution :
    (∀ c s : List Char, ∃ i j, i ≤ j ∧ j ≤ s.length ∧
      removeClassStr c s = s.take i ++ s.drop j) ∧
    removeClassStr "b".toList "b x b".toList = "x b".toList ∧
    classTest "b".toList "x b".toList = true := by
  refine ⟨fun c s => ?_, by decide, by decide⟩
  unfold removeClassStr replaceFirst
  cases h : findMatch c s true with
  | none => exact ⟨0, 0, Nat.le_refl 0, Nat.zero_le _, by simp⟩
  | some il =>
    obtain ⟨i, len⟩ := il
    exact ⟨i, i + len, Nat.le_add_right i len, findMatch_le c s true i len h, rfl⟩

end Xui
